import Mathlib

/-!
Shallow embedding of the `/etc` three-way diff engine from
`crates/etc-merge/src/lib.rs` (functions `compute_diff`,
`compute_metadata_hash`, `recurse_dir`) together with proofs of the
specification claims about it.

Modelling conventions:
* `PathBuf` becomes `List String` (one element per path component);
  the `BTreeMap<PathBuf, Metadata>` ordering compares paths
  component-wise, which is exactly lexicographic order on the
  component lists, written `pathLt` below.
* `BTreeMap` becomes an association list sorted strictly by `pathLt`;
  `insertSorted` keeps it sorted and replaces an equal key, mirroring
  `BTreeMap::insert`.
* Machine integers become `Nat`; `u64::to_le_bytes` and
  `u32::to_le_bytes` become `leBytes 8` / `leBytes 4`, which extract
  the low 8 (resp. 4) little-endian base-256 digits.
* SHA-256 is kept abstract: every function that hashes takes a
  parameter `H : List Nat → List Nat` standing for the digest of a
  byte sequence; incremental `hasher.update` calls are modelled as one
  `H` application to the concatenation of the updated byte runs, which
  is how a streaming hash behaves.
* Fallible external calls return `Except String`.  The result of
  `measure_verity_opt(entry.open()?)` on a non-directory entry is part
  of the filesystem model (field `measured`): `.error e` models the
  open or the measurement failing, `.ok (some d)` models a measured
  fs-verity digest `d`, `.ok none` models a successful open with no
  digest enabled.
-/

namespace EtcMerge

/-- A root-relative path, one component per element (the model of `PathBuf`). -/
abbrev Path := List String

/-- Strict order on characters by code point (executable). -/
def charLtB (c d : Char) : Bool := c.toNat < d.toNat

/-- Lexicographic strict order on character lists. -/
def strLtB : List Char → List Char → Bool
  | [], [] => false
  | [], _ :: _ => true
  | _ :: _, [] => false
  | c :: cs, d :: ds =>
    if charLtB c d then true else if charLtB d c then false else strLtB cs ds

/-- Lexicographic strict order on strings (the order of path components). -/
def strLt (a b : String) : Bool := strLtB a.data b.data

/-- Lexicographic (component-wise) strict order on paths: the order used by
`BTreeMap<PathBuf, _>`, which compares paths component by component. -/
def pathLt : Path → Path → Bool
  | [], [] => false
  | [], _ :: _ => true
  | _ :: _, [] => false
  | a :: as, b :: bs => if strLt a b then true else if strLt b a then false else pathLt as bs

/-- The per-entry fingerprint stored in a snapshot (struct `Metadata` in the
source: `content_hash`, `metadata_hash`, `verity`). -/
structure Metadata where
  content_hash : String
  metadata_hash : String
  verity : Option String
deriving DecidableEq, Repr

/-- A snapshot: the model of `BTreeMap<PathBuf, Metadata>` as an association
list sorted strictly by `pathLt` on the keys. -/
abbrev Snap := List (Path × Metadata)

/-- `BTreeMap::get`: first (and on sorted maps only) binding of a key. -/
def lookupPath (k : Path) : Snap → Option Metadata
  | [] => none
  | (k2, v) :: rest => if k = k2 then some v else lookupPath k rest

/-- `BTreeMap::remove`: drop the binding of `k` (the first one, which on a
key-unique map is the only one). -/
def removeKey (k : Path) : Snap → Snap
  | [] => []
  | (k2, v) :: rest => if k = k2 then rest else (k2, v) :: removeKey k rest

/-- `BTreeMap::insert`: insert keeping the list sorted by `pathLt`,
replacing the value at an already-present key. -/
def insertSorted (k : Path) (v : Metadata) : Snap → Snap
  | [] => [(k, v)]
  | (k2, v2) :: rest =>
    if pathLt k k2 then (k, v) :: (k2, v2) :: rest
    else if pathLt k2 k then (k2, v2) :: insertSorted k v rest
    else (k, v) :: rest

/-- One lowercase hex digit (`hex::encode` uses lowercase). -/
def hexDigitChar (n : Nat) : Char :=
  if n < 10 then Char.ofNat (48 + n) else Char.ofNat (87 + n)

/-- Lowercase hex encoding of a byte sequence (`hex::encode`). -/
def hexEncode (bs : List Nat) : String :=
  String.mk ((bs.map fun b => [hexDigitChar (b / 16 % 16), hexDigitChar (b % 16)]).flatten)

/-- The `w` low little-endian base-256 digits of `n`: the model of
`uN::to_le_bytes` (with `w = 8` for `u64`, `w = 4` for `u32`). -/
def leBytes (w : Nat) (n : Nat) : List Nat :=
  (List.range w).map fun i => n / 256 ^ i % 256

/-- The slice of `cap_std::fs::Metadata` consumed by
`compute_metadata_hash`: the three type predicates, `len()` and
`permissions().mode()`. -/
structure StatMeta where
  is_file : Bool
  is_dir : Bool
  is_symlink : Bool
  len : Nat
  mode : Nat
deriving DecidableEq, Repr

/-- Boolean to byte, the model of `bool as u8`. -/
def boolByte (b : Bool) : Nat := if b then 1 else 0

/-- The byte sequence fed to the hasher by `compute_metadata_hash`
(lib.rs lines 121-139): 3 type bytes, then — unless the entry is a
directory — the 8-byte little-endian `len()` (a `u64`), then the 4-byte
little-endian `permissions().mode()` (a `u32`). -/
def metadata_hash_input (m : StatMeta) : List Nat :=
  [boolByte m.is_file, boolByte m.is_dir, boolByte m.is_symlink]
    ++ (if m.is_dir then [] else leBytes 8 m.len)
    ++ leBytes 4 m.mode

/-- Modelled from the spec (not from the source): the byte sequence the
specification text says the metadata hash is computed over, with an
8-byte little-endian permission-mode field.  Kept separate from
`metadata_hash_input` so the two layouts can be compared. -/
def metadata_hash_input_spec (m : StatMeta) : List Nat :=
  [boolByte m.is_file, boolByte m.is_dir, boolByte m.is_symlink]
    ++ (if m.is_dir then [] else leBytes 8 m.len)
    ++ leBytes 8 m.mode

/-- `compute_metadata_hash` with the digest function abstract: the digest of
`metadata_hash_input`. -/
def compute_metadata_hash (H : List Nat → List Nat) (m : StatMeta) : List Nat :=
  H (metadata_hash_input m)

/-- A filesystem entry as seen by `recurse_dir` through a `cap_std` directory
handle.  `size` / `content` / `target` / `mode` are what `metadata()` /
reading / `readlinkat` return; `measured` is the outcome of
`measure_verity_opt(entry.open()?)` on non-directory entries (directories are
never measured).  For `other` entries (socket, FIFO, device) a measurement can
never produce a digest, so the model only records whether the
open-and-measure step succeeds (`openOk = true`, yielding no digest — e.g. a
device) or fails (`openOk = false` — e.g. a socket, whose open fails). -/
inductive FsEntry where
  | dir (size : Nat) (mode : Nat) (entries : List (String × FsEntry))
  | file (content : List Nat) (mode : Nat) (measured : Except String (Option (List Nat)))
  | symlink (target : List Nat) (mode : Nat) (measured : Except String (Option (List Nat)))
  | other (openOk : Bool)

/-- A directory listing: what `dir.entries()` yields (names need not be
sorted; the snapshot is sorted because it is a `BTreeMap`). -/
abbrev DirListing := List (String × FsEntry)

/-- `recurse_dir` (lib.rs lines 141-230): walk a directory listing, threading
the accumulated snapshot `list` exactly as the Rust `&mut Map` is threaded,
and the `path` argument exactly as the source's mutable `PathBuf` (pushed at
line 146, popped at lines 171, 186 and 226).  For each entry, a directory is
inserted (empty `content_hash`, metadata hash, no verity) and then recursed
into; any other entry is first opened and verity-measured — an error there
aborts the walk, a digest short-circuits to an entry with empty content and
metadata hashes, and otherwise the content (symlink target bytes via
`readlinkat`, or file bytes) is hashed.  An unsupported entry type is not
inserted, but its branch (lines 204-208) `continue`s WITHOUT the `path.pop()`
every other branch performs, so — faithfully modelled here by continuing with
`path ++ [name]` — the skipped name stays on the path and prefixes the keys
of all later siblings in the same directory. -/
def recurse_dir (H : List Nat → List Nat) :
    DirListing → Path → Snap → Except String Snap
  | [], _, list => .ok list
  | (name, .dir size mode ents) :: rest, path, list =>
    match recurse_dir H ents (path ++ [name])
        (insertSorted (path ++ [name])
          ⟨"", hexEncode (compute_metadata_hash H ⟨false, true, false, size, mode⟩), none⟩
          list) with
    | .error e => .error e
    | .ok list2 => recurse_dir H rest path list2
  | (name, .file content mode measured) :: rest, path, list =>
    match measured with
    | .error e => .error e
    | .ok (some d) =>
      recurse_dir H rest path
        (insertSorted (path ++ [name]) ⟨"", "", some (hexEncode d)⟩ list)
    | .ok none =>
      recurse_dir H rest path
        (insertSorted (path ++ [name])
          ⟨hexEncode (H content),
           hexEncode (compute_metadata_hash H ⟨true, false, false, content.length, mode⟩),
           none⟩
          list)
  | (name, .symlink target mode measured) :: rest, path, list =>
    match measured with
    | .error e => .error e
    | .ok (some d) =>
      recurse_dir H rest path
        (insertSorted (path ++ [name]) ⟨"", "", some (hexEncode d)⟩ list)
    | .ok none =>
      recurse_dir H rest path
        (insertSorted (path ++ [name])
          ⟨hexEncode (H target),
           hexEncode (compute_metadata_hash H ⟨false, false, true, target.length, mode⟩),
           none⟩
          list)
  | (name, .other openOk) :: rest, path, list =>
    if openOk then recurse_dir H rest (path ++ [name]) list
    else .error "opening entry failed"

/-- The three diff output lists (struct `Diff`). -/
structure Diff where
  added : List Path
  modified : List Path
  removed : List Path
deriving DecidableEq, Repr

/-- The outcome of the `match (&current_meta.verity, &old_meta.verity)` arms
in `compute_diff`: immediately modified, fall through to the hash comparison,
or the fatal one-sided inconsistency. -/
inductive VerityCheck where
  | modified
  | proceed
  | inconsistent
deriving DecidableEq, Repr

/-- The verity match of `compute_diff` (lib.rs lines 83-101); first argument
is the current entry's verity, second the pristine one's. -/
def verity_check : Option String → Option String → VerityCheck
  | some v1, some v2 => if v1 ≠ v2 then .modified else .proceed
  | none, none => .proceed
  | _, _ => .inconsistent

/-- The hash comparison of `compute_diff` (lib.rs lines 103-104). -/
def hashesDiffer (old_meta current_meta : Metadata) : Bool :=
  old_meta.metadata_hash ≠ current_meta.metadata_hash
    || old_meta.content_hash ≠ current_meta.content_hash

/-- The consuming comparison loop of `compute_diff` (lib.rs lines 76-112):
iterate over the current snapshot in order, classify each path against the
(shrinking) pristine snapshot, and return the added list, the modified list
and the remaining pristine map. -/
def diff_scan : List (Path × Metadata) → Snap →
    Except String (List Path × List Path × Snap)
  | [], pristine => .ok ([], [], pristine)
  | (p, cm) :: rest, pristine =>
    match lookupPath p pristine with
    | none =>
      match diff_scan rest pristine with
      | .error e => .error e
      | .ok (a, m, pr) => .ok (p :: a, m, pr)
    | some om =>
      match verity_check cm.verity om.verity with
      | .inconsistent => .error "File did not have fs-verity now it does or vice-versa"
      | .modified =>
        match diff_scan rest (removeKey p pristine) with
        | .error e => .error e
        | .ok (a, m, pr) => .ok (a, p :: m, pr)
      | .proceed =>
        match diff_scan rest (removeKey p pristine) with
        | .error e => .error e
        | .ok (a, m, pr) => .ok (a, (if hashesDiffer om cm then p :: m else m), pr)

/-- The snapshot-level part of `compute_diff`: run the loop and package the
result, the keys still in the pristine map becoming `removed`
(lib.rs lines 73-118). -/
def compute_diff_maps (pristine current : Snap) : Except String Diff :=
  match diff_scan current pristine with
  | .error e => .error e
  | .ok (a, m, pr) => .ok ⟨a, m, pr.map Prod.fst⟩

/-- `compute_diff` (lib.rs lines 56-119): walk the three roots — any walk
error aborts — then diff current against pristine; the new-tree snapshot is
computed but not consulted. -/
def compute_diff (H : List Nat → List Nat)
    (pristine_etc current_etc new_etc : DirListing) : Except String Diff :=
  match recurse_dir H pristine_etc [] [] with
  | .error e => .error e
  | .ok pristine_etc_files =>
    match recurse_dir H current_etc [] [] with
    | .error e => .error e
    | .ok current_etc_files =>
      match recurse_dir H new_etc [] [] with
      | .error e => .error e
      | .ok _new_etc_files => compute_diff_maps pristine_etc_files current_etc_files

/-! ### Snapshot (association-list) lemmas -/

/-- The keys of a snapshot. -/
abbrev keysOf (m : Snap) : List Path := m.map Prod.fst

/-- Snapshot keys are pairwise distinct (the `BTreeMap` key-uniqueness
invariant). -/
abbrev NodupKeys (m : Snap) : Prop := (keysOf m).Nodup

/-- The snapshot is strictly sorted by `pathLt` on keys (the `BTreeMap`
ordering invariant). -/
abbrev MapOrdered (m : Snap) : Prop := m.Pairwise fun a b => pathLt a.1 b.1 = true

/-! ### Characterization of the diff loop -/

/-- The classification decision `compute_diff` makes for one current entry
`kv` against the pristine snapshot: `true` exactly when the loop pushes the
path onto `modified`. -/
def classifyB (pristine : Snap) (kv : Path × Metadata) : Bool :=
  match lookupPath kv.1 pristine with
  | none => false
  | some om =>
    match verity_check kv.2.verity om.verity with
    | .modified => true
    | .proceed => hashesDiffer om kv.2
    | .inconsistent => false

/-! ### Concrete data used by witnesses and counterexamples -/

/-- A concrete digest function (the identity) instantiating the abstract
256-bit hash in closed witnesses and counterexamples. -/
def hId : List Nat → List Nat := fun bs => bs

/-- A concrete never-empty digest function for witnesses that need nonempty
digests. -/
def hPad : List Nat → List Nat := fun bs => 1 :: bs

/-- Concrete pristine snapshot: one unchanged path and one to be removed. -/
def wPr : Snap := [(["a"], ⟨"ca", "ma", none⟩), (["gone"], ⟨"cg", "mg", none⟩)]

/-- Concrete current snapshot: the unchanged path and one new path. -/
def wCur : Snap := [(["a"], ⟨"ca", "ma", none⟩), (["new"], ⟨"cn", "mn", none⟩)]

/-- Concrete pristine snapshot with a single non-verity path. -/
def wPr2 : Snap := [(["f"], ⟨"c1", "m1", none⟩)]

/-- Concrete current snapshot whose single path differs in content hash. -/
def wCur2 : Snap := [(["f"], ⟨"c2", "m1", none⟩)]

/-- Concrete pristine snapshot whose single path carries a verity digest. -/
def wPr3 : Snap := [(["v"], ⟨"", "", some "aa"⟩)]

/-- Concrete current snapshot whose single path has no verity digest. -/
def wCur3 : Snap := [(["v"], ⟨"c", "m", none⟩)]

/-! ### Locating tree nodes by path (for stating per-entry walker claims) -/

/-- First entry with the given name in a directory listing. -/
def entsLookup (n : String) : DirListing → Option FsEntry
  | [] => none
  | (m, e) :: rest => if n = m then some e else entsLookup n rest

/-- Resolve a relative path inside a tree: one component finds the entry,
more components descend through directories. -/
def findEntry : DirListing → Path → Option FsEntry
  | _, [] => none
  | ents, [n] => entsLookup n ents
  | ents, n :: rest =>
    match entsLookup n ents with
    | some (.dir _ _ sub) => findEntry sub rest
    | _ => none
termination_by _ p => p.length

/-- Directory listings are well formed when entry names are distinct at every
level (true of any real directory, where names are unique). -/
def wf_list : DirListing → Bool
  | [] => true
  | (n, .dir _ _ sub) :: rest =>
    (!decide (n ∈ rest.map Prod.fst)) && wf_list sub && wf_list rest
  | (n, _) :: rest => (!decide (n ∈ rest.map Prod.fst)) && wf_list rest

/-- The tree contains no entry of unsupported type (socket, FIFO, device) at
any level.  On such trees the walker's skip branch (lib.rs 204-208, which
leaks the skipped name into later sibling keys because it `continue`s without
`path.pop()`) is never taken, so every inserted key is the path of the node
it fingerprints. -/
def no_unsupported : DirListing → Bool
  | [] => true
  | (_, .dir _ _ sub) :: rest => no_unsupported sub && no_unsupported rest
  | (_, .other _) :: _ => false
  | (_, _) :: rest => no_unsupported rest

/-- The `StatMeta` view the walker obtains for a node: `metadata()` of a
directory or the `lstat`-like `entry.metadata()` of a file or symlink (whose
`len()` is the byte length of the content, resp. of the link target). -/
def statOf : FsEntry → StatMeta
  | .dir size mode _ => ⟨false, true, false, size, mode⟩
  | .file content mode _ => ⟨true, false, false, content.length, mode⟩
  | .symlink target mode _ => ⟨false, false, true, target.length, mode⟩
  | .other _ => ⟨false, false, false, 0, 0⟩

/-- The fingerprint `recurse_dir` stores for a node it reaches: directories
get an empty content hash and a metadata hash; measured entries get only the
verity digest; unmeasured files and symlinks get content and metadata hashes.
Nodes the walker never inserts (unsupported types, failed measurements) match
no metadata. -/
def MetaMatches (H : List Nat → List Nat) (e : FsEntry) (md : Metadata) : Prop :=
  match e with
  | .dir size mode _ =>
    md = ⟨"", hexEncode (compute_metadata_hash H ⟨false, true, false, size, mode⟩), none⟩
  | .file content mode mv =>
    match mv with
    | .ok (some d) => md = ⟨"", "", some (hexEncode d)⟩
    | .ok none =>
      md = ⟨hexEncode (H content),
            hexEncode (compute_metadata_hash H ⟨true, false, false, content.length, mode⟩),
            none⟩
    | .error _ => False
  | .symlink target mode mv =>
    match mv with
    | .ok (some d) => md = ⟨"", "", some (hexEncode d)⟩
    | .ok none =>
      md = ⟨hexEncode (H target),
            hexEncode (compute_metadata_hash H ⟨false, false, true, target.length, mode⟩),
            none⟩
    | .error _ => False
  | .other _ => False

/-! ### Concrete trees for the walker claims -/

/-- Concrete tree with a directory, a symlink inside it, and a verity file. -/
def w4tree : DirListing :=
  [("d", .dir 4096 493 [("s", .symlink [97] 511 (.ok none))]),
   ("v", .file [7] 420 (.ok (some [1])))]

/-- The snapshot `recurse_dir` produces for `w4tree` under `hId`. -/
def w4out : Snap :=
  [(["d"], ⟨"", hexEncode (compute_metadata_hash hId ⟨false, true, false, 4096, 493⟩), none⟩),
   (["d", "s"], ⟨hexEncode (hId [97]),
     hexEncode (compute_metadata_hash hId ⟨false, false, true, 1, 511⟩), none⟩),
   (["v"], ⟨"", "", some (hexEncode [1])⟩)]

/-- Concrete tree exercising every inserted entry kind. -/
def w5tree : DirListing :=
  [("d", .dir 0 493 []),
   ("f", .file [7] 420 (.ok none)),
   ("s", .symlink [97] 511 (.ok none)),
   ("v", .file [8] 420 (.ok (some [2])))]

/-- The snapshot `recurse_dir` produces for `w5tree` under `hPad`. -/
def w5out : Snap :=
  [(["d"], ⟨"", hexEncode (compute_metadata_hash hPad ⟨false, true, false, 0, 493⟩), none⟩),
   (["f"], ⟨hexEncode (hPad [7]),
     hexEncode (compute_metadata_hash hPad ⟨true, false, false, 1, 420⟩), none⟩),
   (["s"], ⟨hexEncode (hPad [97]),
     hexEncode (compute_metadata_hash hPad ⟨false, false, true, 1, 511⟩), none⟩),
   (["v"], ⟨"", "", some (hexEncode [2])⟩)]

/-- A one-symlink tree whose verity measurement (through the opened link)
yields a digest. -/
def cexC5tree : DirListing := [("l", .symlink [97] 511 (.ok (some [1])))]

/-! ### Lemmas and claim theorems -/

/-! ### Order lemmas for `pathLt` -/

theorem charLtB_irrefl (c : Char) : charLtB c c = false := by
  simp [charLtB]

theorem charLtB_trans {a b c : Char} (h1 : charLtB a b = true) (h2 : charLtB b c = true) :
    charLtB a c = true := by
  simp only [charLtB, decide_eq_true_eq] at h1 h2 ⊢
  omega

theorem charLtB_eq_of_not {c d : Char} (h1 : charLtB c d = false) (h2 : charLtB d c = false) :
    c = d := by
  simp only [charLtB, decide_eq_false_iff_not, not_lt] at h1 h2
  have h3 : c.toNat = d.toNat := le_antisymm h2 h1
  exact Char.ext (UInt32.ext (by simpa [Char.toNat] using h3))

theorem strLtB_irrefl (a : List Char) : strLtB a a = false := by
  induction a with
  | nil => rfl
  | cons x xs ih => simp [strLtB, charLtB_irrefl, ih]

theorem strLtB_trans {a b c : List Char} (h1 : strLtB a b = true) (h2 : strLtB b c = true) :
    strLtB a c = true := by
  induction a generalizing b c with
  | nil =>
    cases b with
    | nil => simp [strLtB] at h1
    | cons y ys => cases c with
      | nil => simp [strLtB] at h2
      | cons z zs => rfl
  | cons x xs ih =>
    cases b with
    | nil => simp [strLtB] at h1
    | cons y ys =>
      cases c with
      | nil => simp [strLtB] at h2
      | cons z zs =>
        simp only [strLtB] at h1 h2 ⊢
        by_cases hxy : charLtB x y = true
        · by_cases hyz : charLtB y z = true
          · simp [charLtB_trans hxy hyz]
          · rw [if_neg hyz] at h2
            by_cases hzy : charLtB z y = true
            · rw [if_pos hzy] at h2
              exact absurd h2 (by simp)
            · have : y = z :=
                charLtB_eq_of_not (Bool.eq_false_iff.2 hyz) (Bool.eq_false_iff.2 hzy)
              subst this
              simp [hxy]
        · rw [if_neg hxy] at h1
          by_cases hyx : charLtB y x = true
          · rw [if_pos hyx] at h1
            exact absurd h1 (by simp)
          · have hxy2 : x = y :=
              charLtB_eq_of_not (Bool.eq_false_iff.2 hxy) (Bool.eq_false_iff.2 hyx)
            subst hxy2
            rw [if_neg hyx] at h1
            by_cases hxz : charLtB x z = true
            · simp [hxz]
            · rw [if_neg hxz] at h2 ⊢
              by_cases hzx : charLtB z x = true
              · rw [if_pos hzx] at h2
                exact absurd h2 (by simp)
              · rw [if_neg hzx] at h2 ⊢
                exact ih h1 h2

theorem strLtB_eq_of_not {a b : List Char} (h1 : strLtB a b = false) (h2 : strLtB b a = false) :
    a = b := by
  induction a generalizing b with
  | nil => cases b with
    | nil => rfl
    | cons y ys => simp [strLtB] at h1
  | cons x xs ih =>
    cases b with
    | nil => simp [strLtB] at h2
    | cons y ys =>
      simp only [strLtB] at h1 h2
      by_cases hxy : charLtB x y = true
      · simp [hxy] at h1
      · by_cases hyx : charLtB y x = true
        · simp [hyx, if_neg hxy] at h2
        · have hxy2 : x = y :=
            charLtB_eq_of_not (Bool.eq_false_iff.2 hxy) (Bool.eq_false_iff.2 hyx)
          subst hxy2
          rw [if_neg hxy, if_neg hxy] at h1
          rw [if_neg hxy, if_neg hxy] at h2
          rw [ih h1 h2]

theorem strLt_irrefl (a : String) : strLt a a = false := strLtB_irrefl a.data

theorem strLt_trans {a b c : String} (h1 : strLt a b = true) (h2 : strLt b c = true) :
    strLt a c = true := strLtB_trans h1 h2

theorem strLt_eq_of_not {a b : String} (h1 : strLt a b = false) (h2 : strLt b a = false) :
    a = b := by
  obtain ⟨da⟩ := a
  obtain ⟨db⟩ := b
  have h3 : da = db := strLtB_eq_of_not h1 h2
  rw [h3]

theorem pathLt_irrefl (a : Path) : pathLt a a = false := by
  induction a with
  | nil => rfl
  | cons x xs ih => simp [pathLt, strLt_irrefl, ih]

theorem pathLt_trans {a b c : Path} (h1 : pathLt a b = true) (h2 : pathLt b c = true) :
    pathLt a c = true := by
  induction a generalizing b c with
  | nil =>
    cases b with
    | nil => simp [pathLt] at h1
    | cons y ys => cases c with
      | nil => simp [pathLt] at h2
      | cons z zs => rfl
  | cons x xs ih =>
    cases b with
    | nil => simp [pathLt] at h1
    | cons y ys =>
      cases c with
      | nil => simp [pathLt] at h2
      | cons z zs =>
        simp only [pathLt] at h1 h2 ⊢
        by_cases hxy : strLt x y = true
        · by_cases hyz : strLt y z = true
          · simp [strLt_trans hxy hyz]
          · rw [if_neg hyz] at h2
            by_cases hzy : strLt z y = true
            · rw [if_pos hzy] at h2
              exact absurd h2 (by simp)
            · have : y = z :=
                strLt_eq_of_not (Bool.eq_false_iff.2 hyz) (Bool.eq_false_iff.2 hzy)
              subst this
              simp [hxy]
        · rw [if_neg hxy] at h1
          by_cases hyx : strLt y x = true
          · rw [if_pos hyx] at h1
            exact absurd h1 (by simp)
          · have hxy2 : x = y :=
              strLt_eq_of_not (Bool.eq_false_iff.2 hxy) (Bool.eq_false_iff.2 hyx)
            subst hxy2
            rw [if_neg hyx] at h1
            by_cases hxz : strLt x z = true
            · simp [hxz]
            · rw [if_neg hxz] at h2 ⊢
              by_cases hzx : strLt z x = true
              · rw [if_pos hzx] at h2
                exact absurd h2 (by simp)
              · rw [if_neg hzx] at h2 ⊢
                exact ih h1 h2

theorem pathLt_total_eq {a b : Path} (h1 : pathLt a b = false) (h2 : pathLt b a = false) :
    a = b := by
  induction a generalizing b with
  | nil => cases b with
    | nil => rfl
    | cons y ys => simp [pathLt] at h1
  | cons x xs ih =>
    cases b with
    | nil => simp [pathLt] at h2
    | cons y ys =>
      simp only [pathLt] at h1 h2
      by_cases hxy : strLt x y = true
      · simp [hxy] at h1
      · by_cases hyx : strLt y x = true
        · simp [hyx, if_neg hxy] at h2
        · have hxy2 : x = y :=
            strLt_eq_of_not (Bool.eq_false_iff.2 hxy) (Bool.eq_false_iff.2 hyx)
          subst hxy2
          rw [if_neg hxy, if_neg hxy] at h1
          rw [if_neg hxy, if_neg hxy] at h2
          rw [ih h1 h2]

theorem pathLt_ne {a b : Path} (h : pathLt a b = true) : a ≠ b := by
  intro he
  subst he
  rw [pathLt_irrefl] at h
  exact Bool.false_ne_true h

theorem mapOrdered_nodupKeys {m : Snap} (h : MapOrdered m) : NodupKeys m := by
  show (List.map Prod.fst m).Pairwise (· ≠ ·)
  rw [List.pairwise_map]
  exact h.imp fun hlt => pathLt_ne hlt

theorem lookupPath_eq_none_iff {k : Path} {m : Snap} :
    lookupPath k m = none ↔ k ∉ keysOf m := by
  induction m with
  | nil =>
    constructor
    · intro _ hmem
      exact (List.not_mem_nil k) hmem
    · intro _
      rfl
  | cons kv rest ih =>
    obtain ⟨k2, v⟩ := kv
    have hkeys : keysOf ((k2, v) :: rest) = k2 :: keysOf rest := rfl
    by_cases h : k = k2
    · subst h
      constructor
      · intro hc
        rw [lookupPath, if_pos rfl] at hc
        exact Option.noConfusion hc
      · intro hmem
        exact absurd (hkeys ▸ List.mem_cons_self k (keysOf rest)) hmem
    · rw [lookupPath, if_neg h, ih, hkeys]
      constructor
      · intro hn hmem
        rcases List.mem_cons.1 hmem with h1 | h1
        · exact h h1
        · exact hn h1
      · intro hn h1
        exact hn (List.mem_cons_of_mem _ h1)

theorem lookupPath_isSome_iff {k : Path} {m : Snap} :
    (lookupPath k m).isSome = true ↔ k ∈ keysOf m := by
  rcases h : lookupPath k m with _ | v
  · simp only [Option.isSome_none, Bool.false_eq_true, false_iff]
    exact lookupPath_eq_none_iff.1 h
  · simp only [Option.isSome_some, true_iff]
    by_contra hk
    rw [← lookupPath_eq_none_iff] at hk
    rw [h] at hk
    exact Option.noConfusion hk

theorem mem_of_lookupPath {k : Path} {v : Metadata} {m : Snap}
    (h : lookupPath k m = some v) : (k, v) ∈ m := by
  induction m with
  | nil => simp [lookupPath] at h
  | cons kv rest ih =>
    obtain ⟨k2, v2⟩ := kv
    by_cases he : k = k2
    · subst he
      simp [lookupPath] at h
      simp [h]
    · simp only [lookupPath, if_neg he] at h
      exact List.mem_cons_of_mem _ (ih h)

theorem lookupPath_of_mem {kv : Path × Metadata} {m : Snap}
    (hm : NodupKeys m) (h : kv ∈ m) : lookupPath kv.1 m = some kv.2 := by
  induction m with
  | nil => simp at h
  | cons kv2 rest ih =>
    obtain ⟨k2, v2⟩ := kv2
    unfold NodupKeys keysOf at hm
    simp only [List.map_cons, List.nodup_cons] at hm
    rcases List.mem_cons.1 h with he | hrest
    · subst he
      simp [lookupPath]
    · have hk : kv.1 ≠ k2 := by
        intro hc
        exact hm.1 (hc ▸ List.mem_map_of_mem Prod.fst hrest)
      simp only [lookupPath, if_neg hk]
      exact ih hm.2 hrest

theorem lookupPath_removeKey_of_ne {k k2 : Path} {m : Snap} (h : k ≠ k2) :
    lookupPath k (removeKey k2 m) = lookupPath k m := by
  induction m with
  | nil => rfl
  | cons kv rest ih =>
    obtain ⟨k3, v⟩ := kv
    by_cases h2 : k2 = k3
    · subst h2
      simp [removeKey, lookupPath, if_neg h]
    · by_cases h3 : k = k3
      · subst h3
        simp [removeKey, if_neg h2, lookupPath]
      · simp [removeKey, if_neg h2, lookupPath, if_neg h3, ih]

theorem removeKey_sublist (k : Path) (m : Snap) : (removeKey k m).Sublist m := by
  induction m with
  | nil => simp [removeKey]
  | cons kv rest ih =>
    obtain ⟨k2, v⟩ := kv
    by_cases h : k = k2
    · simp [removeKey, h]
    · simpa [removeKey, h] using ih

theorem nodupKeys_removeKey {k : Path} {m : Snap} (h : NodupKeys m) :
    NodupKeys (removeKey k m) :=
  List.Nodup.sublist (List.Sublist.map Prod.fst (removeKey_sublist k m)) h

theorem mapOrdered_removeKey {k : Path} {m : Snap} (h : MapOrdered m) :
    MapOrdered (removeKey k m) :=
  h.sublist (removeKey_sublist k m)

theorem removeKey_eq_filter {k : Path} {m : Snap} (h : NodupKeys m) :
    removeKey k m = m.filter fun kv => decide (kv.1 ≠ k) := by
  induction m with
  | nil => rfl
  | cons kv rest ih =>
    obtain ⟨k2, v⟩ := kv
    unfold NodupKeys keysOf at h
    simp only [List.map_cons, List.nodup_cons] at h
    by_cases he : k = k2
    · subst he
      simp only [removeKey, if_pos rfl, List.filter_cons]
      have hp : (decide ((k, v).1 ≠ k)) = false := by simp
      rw [hp]
      simp only [Bool.false_eq_true, if_false]
      refine (List.filter_eq_self.2 ?_).symm
      intro kv hkv
      simp only [decide_eq_true_iff]
      intro hc
      exact h.1 (hc ▸ List.mem_map_of_mem Prod.fst hkv)
    · have hne : k2 ≠ k := fun hc => he hc.symm
      simp [removeKey, if_neg he, List.filter_cons, hne, ih h.2]

/-! ### `insertSorted` lemmas -/

theorem lookupPath_insertSorted (k q : Path) (v : Metadata) (m : Snap) :
    lookupPath q (insertSorted k v m) = if q = k then some v else lookupPath q m := by
  induction m with
  | nil =>
    by_cases h : q = k
    · simp [insertSorted, lookupPath, h]
    · simp [insertSorted, lookupPath, h]
  | cons kv rest ih =>
    obtain ⟨k2, v2⟩ := kv
    by_cases h1 : pathLt k k2
    · rw [insertSorted, if_pos h1]
      by_cases h : q = k
      · simp [lookupPath, h]
      · simp only [lookupPath, if_neg h]
    · by_cases h2 : pathLt k2 k
      · rw [insertSorted, if_neg h1, if_pos h2]
        by_cases hq : q = k2
        · subst hq
          have hqk : q ≠ k := fun hc => by
            subst hc
            rw [pathLt_irrefl] at h2
            exact Bool.false_ne_true h2
          rw [lookupPath, if_pos rfl, lookupPath, if_pos rfl, if_neg hqk]
        · rw [lookupPath, if_neg hq, lookupPath, if_neg hq, ih]
      · have hk : k = k2 :=
          pathLt_total_eq (Bool.eq_false_iff.2 h1) (Bool.eq_false_iff.2 h2)
        subst hk
        rw [insertSorted, if_neg h1, if_neg h2]
        by_cases hq : q = k
        · simp [lookupPath, hq]
        · simp only [lookupPath, if_neg hq]

theorem mem_insertSorted {x : Path × Metadata} {k : Path} {v : Metadata} {m : Snap}
    (h : x ∈ insertSorted k v m) : x = (k, v) ∨ x ∈ m := by
  induction m with
  | nil =>
    rcases List.mem_cons.1 h with h1 | h1
    · exact Or.inl h1
    · exact absurd h1 (List.not_mem_nil x)
  | cons kv rest ih =>
    obtain ⟨k2, v2⟩ := kv
    by_cases h1 : pathLt k k2
    · rw [insertSorted, if_pos h1] at h
      rcases List.mem_cons.1 h with h2 | h2
      · exact Or.inl h2
      · exact Or.inr h2
    · by_cases h2 : pathLt k2 k
      · rw [insertSorted, if_neg h1, if_pos h2] at h
        rcases List.mem_cons.1 h with h3 | h3
        · exact Or.inr (List.mem_cons.2 (Or.inl h3))
        · rcases ih h3 with h4 | h4
          · exact Or.inl h4
          · exact Or.inr (List.mem_cons_of_mem _ h4)
      · rw [insertSorted, if_neg h1, if_neg h2] at h
        rcases List.mem_cons.1 h with h3 | h3
        · exact Or.inl h3
        · exact Or.inr (List.mem_cons_of_mem _ h3)

theorem mapOrdered_insertSorted {m : Snap} (k : Path) (v : Metadata)
    (h : MapOrdered m) : MapOrdered (insertSorted k v m) := by
  induction m with
  | nil =>
    exact List.pairwise_singleton _ _
  | cons kv rest ih =>
    obtain ⟨k2, v2⟩ := kv
    rw [MapOrdered, List.pairwise_cons] at h
    by_cases h1 : pathLt k k2
    · rw [MapOrdered, insertSorted, if_pos h1, List.pairwise_cons]
      refine ⟨?_, List.Pairwise.cons h.1 h.2⟩
      intro x hx
      rcases List.mem_cons.1 hx with h2 | h2
      · rw [h2]
        exact h1
      · exact pathLt_trans h1 (h.1 x h2)
    · by_cases h2 : pathLt k2 k
      · rw [MapOrdered, insertSorted, if_neg h1, if_pos h2, List.pairwise_cons]
        refine ⟨?_, ih h.2⟩
        intro x hx
        rcases mem_insertSorted hx with h3 | h3
        · rw [h3]
          exact h2
        · exact h.1 x h3
      · have hk : k = k2 :=
          pathLt_total_eq (Bool.eq_false_iff.2 h1) (Bool.eq_false_iff.2 h2)
        subst hk
        rw [MapOrdered, insertSorted, if_neg h1, if_neg h2, List.pairwise_cons]
        exact ⟨h.1, h.2⟩

theorem classifyB_some {pristine : Snap} {p : Path} {cm om : Metadata}
    (hl : lookupPath p pristine = some om) :
    classifyB pristine (p, cm) =
      (match verity_check cm.verity om.verity with
       | .modified => true
       | .proceed => hashesDiffer om cm
       | .inconsistent => false) := by
  unfold classifyB
  rw [hl]

theorem classifyB_eq_of_stab {m1 m2 : Snap} {kv : Path × Metadata}
    (h : lookupPath kv.1 m1 = lookupPath kv.1 m2) :
    classifyB m1 kv = classifyB m2 kv := by
  unfold classifyB
  rw [h]

theorem diff_scan_ok_spec :
    ∀ (cur : List (Path × Metadata)) (pristine : Snap) (a m : List Path) (pr : Snap),
    (cur.map Prod.fst).Nodup → NodupKeys pristine →
    diff_scan cur pristine = .ok (a, m, pr) →
    a = (cur.filter fun kv => (lookupPath kv.1 pristine).isNone).map Prod.fst ∧
    m = (cur.filter (classifyB pristine)).map Prod.fst ∧
    pr = pristine.filter fun kv => (lookupPath kv.1 cur).isNone := by
  intro cur
  induction cur with
  | nil =>
    intro pristine a m pr _ _ hscan
    rw [diff_scan] at hscan
    simp only [Except.ok.injEq, Prod.mk.injEq] at hscan
    obtain ⟨h1, h2, h3⟩ := hscan
    subst h1; subst h2; subst h3
    refine ⟨rfl, rfl, ?_⟩
    refine (List.filter_eq_self.2 ?_).symm
    intro kv _
    rfl
  | cons hd rest ih =>
    obtain ⟨p, cm⟩ := hd
    intro pristine a m pr hc hp hscan
    rw [List.map_cons, List.nodup_cons] at hc
    obtain ⟨hc1, hc2⟩ := hc
    rw [diff_scan] at hscan
    split at hscan
    · -- path absent from pristine: ADDED
      rename_i hl
      split at hscan
      · exact absurd hscan (by simp)
      · rename_i a2 m2 pr2 hs
        simp only [Except.ok.injEq, Prod.mk.injEq] at hscan
        obtain ⟨ha, hm, hpr⟩ := hscan
        subst ha; subst hm; subst hpr
        obtain ⟨e1, e2, e3⟩ := ih pristine a2 m2 pr2 hc2 hp hs
        refine ⟨?_, ?_, ?_⟩
        · rw [List.filter_cons, show ((lookupPath (p, cm).1 pristine).isNone) = true by
            rw [hl]; rfl]
          rw [if_pos rfl, List.map_cons, e1]
        · rw [List.filter_cons, show classifyB pristine (p, cm) = false by
            unfold classifyB; rw [hl]]
          simp only [Bool.false_eq_true, if_false]
          exact e2
        · rw [e3]
          refine List.filter_congr ?_
          intro kv hkv
          have hne : kv.1 ≠ p := by
            intro hcontra
            have : kv.1 ∈ keysOf pristine := List.mem_map_of_mem Prod.fst hkv
            rw [hcontra] at this
            exact lookupPath_eq_none_iff.1 hl this
          have hl2 : lookupPath kv.1 ((p, cm) :: rest) = lookupPath kv.1 rest := by
            rw [lookupPath, if_neg hne]
          rw [hl2]
    · -- path present in pristine
      rename_i om hl
      split at hscan
      · -- one-sided verity: the scan errors, contradicting success
        exact absurd hscan (by simp)
      · -- verity digests differ: MODIFIED
        rename_i hv
        split at hscan
        · exact absurd hscan (by simp)
        · rename_i a2 m2 pr2 hs
          simp only [Except.ok.injEq, Prod.mk.injEq] at hscan
          obtain ⟨ha, hm, hpr⟩ := hscan
          subst ha; subst hm; subst hpr
          obtain ⟨e1, e2, e3⟩ :=
            ih (removeKey p pristine) a2 m2 pr2 hc2 (nodupKeys_removeKey hp) hs
          have hstab : ∀ kv ∈ rest,
              lookupPath kv.1 (removeKey p pristine) = lookupPath kv.1 pristine := by
            intro kv hkv
            refine lookupPath_removeKey_of_ne ?_
            intro hcontra
            have hmem : kv.1 ∈ List.map Prod.fst rest := List.mem_map_of_mem Prod.fst hkv
            rw [hcontra] at hmem
            exact hc1 hmem
          refine ⟨?_, ?_, ?_⟩
          · rw [List.filter_cons, show ((lookupPath (p, cm).1 pristine).isNone) = false by
              rw [hl]; rfl]
            simp only [Bool.false_eq_true, if_false]
            rw [e1]
            refine congrArg (List.map Prod.fst) (List.filter_congr ?_)
            intro kv hkv
            rw [hstab kv hkv]
          · rw [List.filter_cons, show classifyB pristine (p, cm) = true by
              rw [classifyB_some hl, hv]]
            rw [if_pos rfl, List.map_cons, e2]
            refine congrArg (List.cons p) (congrArg (List.map Prod.fst) (List.filter_congr ?_))
            intro kv hkv
            rw [classifyB_eq_of_stab (hstab kv hkv)]
          · rw [e3, removeKey_eq_filter hp, List.filter_filter]
            refine List.filter_congr ?_
            intro kv _
            by_cases hne : kv.1 = p
            · rw [lookupPath, if_pos hne]
              simp [hne]
            · rw [lookupPath, if_neg hne]
              simp [hne]
      · -- verity equal or absent on both sides: hash comparison decides
        rename_i hv
        split at hscan
        · exact absurd hscan (by simp)
        · rename_i a2 m2 pr2 hs
          simp only [Except.ok.injEq, Prod.mk.injEq] at hscan
          obtain ⟨ha, hm, hpr⟩ := hscan
          subst ha; subst hm; subst hpr
          obtain ⟨e1, e2, e3⟩ :=
            ih (removeKey p pristine) a2 m2 pr2 hc2 (nodupKeys_removeKey hp) hs
          have hstab : ∀ kv ∈ rest,
              lookupPath kv.1 (removeKey p pristine) = lookupPath kv.1 pristine := by
            intro kv hkv
            refine lookupPath_removeKey_of_ne ?_
            intro hcontra
            have hmem : kv.1 ∈ List.map Prod.fst rest := List.mem_map_of_mem Prod.fst hkv
            rw [hcontra] at hmem
            exact hc1 hmem
          refine ⟨?_, ?_, ?_⟩
          · rw [List.filter_cons, show ((lookupPath (p, cm).1 pristine).isNone) = false by
              rw [hl]; rfl]
            simp only [Bool.false_eq_true, if_false]
            rw [e1]
            refine congrArg (List.map Prod.fst) (List.filter_congr ?_)
            intro kv hkv
            rw [hstab kv hkv]
          · rw [List.filter_cons, show classifyB pristine (p, cm) = hashesDiffer om cm by
              rw [classifyB_some hl, hv]]
            have hrest : (rest.filter (classifyB (removeKey p pristine))).map Prod.fst =
                (rest.filter (classifyB pristine)).map Prod.fst := by
              refine congrArg (List.map Prod.fst) (List.filter_congr ?_)
              intro kv hkv
              rw [classifyB_eq_of_stab (hstab kv hkv)]
            rw [e2, hrest]
            by_cases hd : hashesDiffer om cm = true
            · simp [hd]
            · simp [hd]
          · rw [e3, removeKey_eq_filter hp, List.filter_filter]
            refine List.filter_congr ?_
            intro kv _
            by_cases hne : kv.1 = p
            · rw [lookupPath, if_pos hne]
              simp [hne]
            · rw [lookupPath, if_neg hne]
              simp [hne]

/-! ### Derived membership characterizations -/

theorem compute_diff_maps_ok {pristine current : Snap} {d : Diff}
    (h : compute_diff_maps pristine current = .ok d) :
    ∃ a m pr, diff_scan current pristine = .ok (a, m, pr) ∧ d = ⟨a, m, pr.map Prod.fst⟩ := by
  unfold compute_diff_maps at h
  split at h
  · exact absurd h (by simp)
  · rename_i a m pr hs
    injection h with h2
    exact ⟨a, m, pr, hs, h2.symm⟩

theorem mem_added_iff {current pristine : Snap} {a m : List Path} {pr : Snap} {q : Path}
    (hc : NodupKeys current) (hp : NodupKeys pristine)
    (h : diff_scan current pristine = .ok (a, m, pr)) :
    q ∈ a ↔ q ∈ keysOf current ∧ lookupPath q pristine = none := by
  obtain ⟨e1, _, _⟩ := diff_scan_ok_spec current pristine a m pr hc hp h
  subst e1
  constructor
  · intro hq
    obtain ⟨kv, hkv, hfst⟩ := List.mem_map.1 hq
    obtain ⟨hkvmem, hpred⟩ := List.mem_filter.1 hkv
    subst hfst
    exact ⟨List.mem_map_of_mem Prod.fst hkvmem, Option.isNone_iff_eq_none.1 hpred⟩
  · rintro ⟨hq, hnone⟩
    obtain ⟨kv, hkvmem, hfst⟩ := List.mem_map.1 hq
    refine List.mem_map.2 ⟨kv, List.mem_filter.2 ⟨hkvmem, ?_⟩, hfst⟩
    rw [hfst, hnone]
    rfl

theorem mem_modified_iff {current pristine : Snap} {a m : List Path} {pr : Snap} {q : Path}
    (hc : NodupKeys current) (hp : NodupKeys pristine)
    (h : diff_scan current pristine = .ok (a, m, pr)) :
    q ∈ m ↔ ∃ cm, lookupPath q current = some cm ∧ classifyB pristine (q, cm) = true := by
  obtain ⟨_, e2, _⟩ := diff_scan_ok_spec current pristine a m pr hc hp h
  subst e2
  constructor
  · intro hq
    obtain ⟨kv, hkv, hfst⟩ := List.mem_map.1 hq
    obtain ⟨hkvmem, hpred⟩ := List.mem_filter.1 hkv
    refine ⟨kv.2, ?_, ?_⟩
    · rw [← hfst]
      exact lookupPath_of_mem hc hkvmem
    · rw [← hfst]
      exact hpred
  · rintro ⟨cm, hlk, hcl⟩
    exact List.mem_map.2 ⟨(q, cm), List.mem_filter.2 ⟨mem_of_lookupPath hlk, hcl⟩, rfl⟩

theorem mem_removed_iff {current pristine : Snap} {a m : List Path} {pr : Snap} {q : Path}
    (hc : NodupKeys current) (hp : NodupKeys pristine)
    (h : diff_scan current pristine = .ok (a, m, pr)) :
    q ∈ pr.map Prod.fst ↔ q ∈ keysOf pristine ∧ lookupPath q current = none := by
  obtain ⟨_, _, e3⟩ := diff_scan_ok_spec current pristine a m pr hc hp h
  subst e3
  constructor
  · intro hq
    obtain ⟨kv, hkv, hfst⟩ := List.mem_map.1 hq
    obtain ⟨hkvmem, hpred⟩ := List.mem_filter.1 hkv
    subst hfst
    exact ⟨List.mem_map_of_mem Prod.fst hkvmem, Option.isNone_iff_eq_none.1 hpred⟩
  · rintro ⟨hq, hnone⟩
    obtain ⟨kv, hkvmem, hfst⟩ := List.mem_map.1 hq
    refine List.mem_map.2 ⟨kv, List.mem_filter.2 ⟨hkvmem, ?_⟩, hfst⟩
    rw [hfst, hnone]
    rfl

theorem classifyB_true_lookup {pristine : Snap} {kv : Path × Metadata}
    (h : classifyB pristine kv = true) : (lookupPath kv.1 pristine).isSome = true := by
  unfold classifyB at h
  rcases hl : lookupPath kv.1 pristine with _ | om
  · rw [hl] at h
    simp at h
  · rfl

/-! ### Lemmas for the inconsistency (one-sided verity) error -/

theorem diff_scan_inconsistent :
    ∀ (cur : List (Path × Metadata)) (pristine : Snap) (p : Path) (om cm : Metadata),
    lookupPath p pristine = some om → lookupPath p cur = some cm →
    verity_check cm.verity om.verity = .inconsistent →
    ∃ e, diff_scan cur pristine = .error e := by
  intro cur
  induction cur with
  | nil =>
    intro pristine p om cm _ hcur _
    rw [lookupPath] at hcur
    exact absurd hcur (by simp)
  | cons hd rest ih =>
    obtain ⟨q, qm⟩ := hd
    intro pristine p om cm hpr hcur hv
    by_cases hpq : p = q
    · subst hpq
      rw [lookupPath, if_pos rfl] at hcur
      injection hcur with hcm
      subst hcm
      refine ⟨"File did not have fs-verity now it does or vice-versa", ?_⟩
      rw [diff_scan]
      split
      · rename_i hl
        rw [hpr] at hl
        exact absurd hl (by simp)
      · rename_i om2 hl
        rw [hpr] at hl
        injection hl with hom2
        subst hom2
        split
        · rfl
        · rename_i hv2
          rw [hv] at hv2
          exact absurd hv2 (by simp)
        · rename_i hv2
          rw [hv] at hv2
          exact absurd hv2 (by simp)
    · rw [lookupPath, if_neg hpq] at hcur
      rw [diff_scan]
      split
      · rename_i hl
        obtain ⟨e, he⟩ := ih pristine p om cm hpr hcur hv
        rw [he]
        exact ⟨e, rfl⟩
      · rename_i om2 hl
        split
        · exact ⟨_, rfl⟩
        · obtain ⟨e, he⟩ := ih (removeKey q pristine) p om cm
            ((lookupPath_removeKey_of_ne hpq).trans hpr) hcur hv
          rw [he]
          exact ⟨e, rfl⟩
        · obtain ⟨e, he⟩ := ih (removeKey q pristine) p om cm
            ((lookupPath_removeKey_of_ne hpq).trans hpr) hcur hv
          rw [he]
          exact ⟨e, rfl⟩

/-! ### Lemmas for the self-diff -/

theorem hashesDiffer_self (x : Metadata) : hashesDiffer x x = false := by
  simp [hashesDiffer]

theorem verity_check_self (v : Option String) : verity_check v v = .proceed := by
  cases v with
  | none => rfl
  | some s => simp [verity_check]

theorem diff_scan_self (m : Snap) : diff_scan m m = .ok ([], [], []) := by
  induction m with
  | nil => rfl
  | cons kv rest ih =>
    obtain ⟨p, cm⟩ := kv
    simp [diff_scan, lookupPath, removeKey, verity_check_self, hashesDiffer_self, ih]

/-! ### Claim theorems C1, C2, C3, C9, C10 (snapshot-level diff) -/

/-- C1: a path present in the current snapshot but absent from the pristine
snapshot is classified ADDED (and nothing else is), and the REMOVED list is
exactly the pristine keys not matched by any current path — the keys left in
the pristine map after the consuming pass. -/
theorem compute_diff_added_removed_correct
    (pristine current : Snap) (d : Diff)
    (hp : NodupKeys pristine) (hc : NodupKeys current)
    (hok : compute_diff_maps pristine current = .ok d) :
    (∀ q, q ∈ d.added ↔ q ∈ keysOf current ∧ lookupPath q pristine = none) ∧
    (∀ q, q ∈ d.removed ↔ q ∈ keysOf pristine ∧ lookupPath q current = none) := by
  obtain ⟨a, m, pr, hs, hd⟩ := compute_diff_maps_ok hok
  subst hd
  exact ⟨fun q => mem_added_iff hc hp hs, fun q => mem_removed_iff hc hp hs⟩

/-- Witness for C1: the theorem applied at concrete snapshots. -/
theorem compute_diff_added_removed_correct_witness :
    (∀ q, q ∈ (Diff.mk [["new"]] [] [["gone"]]).added ↔
      q ∈ keysOf wCur ∧ lookupPath q wPr = none) ∧
    (∀ q, q ∈ (Diff.mk [["new"]] [] [["gone"]]).removed ↔
      q ∈ keysOf wPr ∧ lookupPath q wCur = none) :=
  compute_diff_added_removed_correct wPr wCur ⟨[["new"]], [], [["gone"]]⟩
    (by decide) (by decide) (by rfl)

/-- C2: for a path present in both snapshots with verity absent on both
sides, it is classified MODIFIED exactly when the metadata hashes or the
content hashes differ; when both are equal the path lands in none of the
three output lists. -/
theorem compute_diff_no_verity_modified_iff
    (pristine current : Snap) (d : Diff) (p : Path) (om cm : Metadata)
    (hp : NodupKeys pristine) (hc : NodupKeys current)
    (hok : compute_diff_maps pristine current = .ok d)
    (hom : lookupPath p pristine = some om) (hcm : lookupPath p current = some cm)
    (hov : om.verity = none) (hcv : cm.verity = none) :
    (p ∈ d.modified ↔
      (om.metadata_hash ≠ cm.metadata_hash ∨ om.content_hash ≠ cm.content_hash)) ∧
    (om.metadata_hash = cm.metadata_hash ∧ om.content_hash = cm.content_hash →
      p ∉ d.added ∧ p ∉ d.modified ∧ p ∉ d.removed) := by
  obtain ⟨a, m, pr, hs, hd⟩ := compute_diff_maps_ok hok
  subst hd
  have hclass : classifyB pristine (p, cm) = hashesDiffer om cm := by
    rw [classifyB_some hom, hcv, hov]
    rfl
  have hmod : p ∈ m ↔
      (om.metadata_hash ≠ cm.metadata_hash ∨ om.content_hash ≠ cm.content_hash) := by
    rw [mem_modified_iff hc hp hs]
    constructor
    · rintro ⟨cm2, hlk2, hcl2⟩
      rw [hcm] at hlk2
      injection hlk2 with hcm2
      subst hcm2
      rw [hclass] at hcl2
      simpa [hashesDiffer] using hcl2
    · intro hne
      refine ⟨cm, hcm, ?_⟩
      rw [hclass]
      simpa [hashesDiffer] using hne
  refine ⟨hmod, ?_⟩
  rintro ⟨h1, h2⟩
  refine ⟨?_, ?_, ?_⟩
  · rw [mem_added_iff hc hp hs]
    rintro ⟨_, hn⟩
    rw [hom] at hn
    exact Option.noConfusion hn
  · rw [hmod]
    rintro (hne | hne)
    · exact hne h1
    · exact hne h2
  · rw [mem_removed_iff hc hp hs]
    rintro ⟨_, hn⟩
    rw [hcm] at hn
    exact Option.noConfusion hn

/-- Witness for C2: the theorem applied at concrete snapshots differing only
in the content hash of one shared non-verity path. -/
theorem compute_diff_no_verity_modified_iff_witness :
    ((["f"] : Path) ∈ (Diff.mk [] [["f"]] []).modified ↔
      ((Metadata.mk "c1" "m1" none).metadata_hash ≠ (Metadata.mk "c2" "m1" none).metadata_hash ∨
       (Metadata.mk "c1" "m1" none).content_hash ≠ (Metadata.mk "c2" "m1" none).content_hash)) ∧
    ((Metadata.mk "c1" "m1" none).metadata_hash = (Metadata.mk "c2" "m1" none).metadata_hash ∧
     (Metadata.mk "c1" "m1" none).content_hash = (Metadata.mk "c2" "m1" none).content_hash →
      (["f"] : Path) ∉ (Diff.mk [] [["f"]] []).added ∧
      (["f"] : Path) ∉ (Diff.mk [] [["f"]] []).modified ∧
      (["f"] : Path) ∉ (Diff.mk [] [["f"]] []).removed) :=
  compute_diff_no_verity_modified_iff wPr2 wCur2 ⟨[], [["f"]], []⟩ ["f"]
    ⟨"c1", "m1", none⟩ ⟨"c2", "m1", none⟩
    (by decide) (by decide) (by rfl) (by rfl) (by rfl) (by rfl) (by rfl)

/-- C3: a path present in both snapshots with a verity digest on exactly one
side makes the whole diff fail with an error; no `Diff` value is produced. -/
theorem compute_diff_one_sided_verity_errors
    (pristine current : Snap) (p : Path) (om cm : Metadata)
    (hom : lookupPath p pristine = some om) (hcm : lookupPath p current = some cm)
    (hv : (om.verity = none ∧ cm.verity.isSome = true) ∨
          (om.verity.isSome = true ∧ cm.verity = none)) :
    ∃ e, compute_diff_maps pristine current = .error e := by
  have hincon : verity_check cm.verity om.verity = .inconsistent := by
    rcases hv with ⟨h1, h2⟩ | ⟨h1, h2⟩
    · obtain ⟨v, hvv⟩ := Option.isSome_iff_exists.1 h2
      rw [h1, hvv]
      rfl
    · obtain ⟨v, hvv⟩ := Option.isSome_iff_exists.1 h1
      rw [h2, hvv]
      rfl
  obtain ⟨e, he⟩ := diff_scan_inconsistent current pristine p om cm hom hcm hincon
  refine ⟨e, ?_⟩
  rw [compute_diff_maps, he]

/-- Witness for C3: the theorem applied at concrete snapshots where the
pristine side alone carries a verity digest. -/
theorem compute_diff_one_sided_verity_errors_witness :
    ∃ e, compute_diff_maps wPr3 wCur3 = .error e :=
  compute_diff_one_sided_verity_errors wPr3 wCur3 ["v"]
    ⟨"", "", some "aa"⟩ ⟨"c", "m", none⟩
    (by rfl) (by rfl) (Or.inr ⟨by rfl, by rfl⟩)

/-- C9: diffing a snapshot against itself yields empty added, modified and
removed lists, for every snapshot. -/
theorem compute_diff_self_empty (m : Snap) :
    compute_diff_maps m m = .ok ⟨[], [], []⟩ := by
  rw [compute_diff_maps, diff_scan_self]
  rfl

/-- C10: on success the three lists are pairwise disjoint; added and modified
paths are keys of the current snapshot, removed paths are keys of the
pristine snapshot and not of the current one, and modified paths are keys of
both. -/
theorem compute_diff_output_domains
    (pristine current : Snap) (d : Diff)
    (hp : NodupKeys pristine) (hc : NodupKeys current)
    (hok : compute_diff_maps pristine current = .ok d) :
    (∀ q ∈ d.added, q ∈ keysOf current ∧ q ∉ keysOf pristine) ∧
    (∀ q ∈ d.modified, q ∈ keysOf current ∧ q ∈ keysOf pristine) ∧
    (∀ q ∈ d.removed, q ∈ keysOf pristine ∧ q ∉ keysOf current) ∧
    (∀ q, ¬(q ∈ d.added ∧ q ∈ d.modified)) ∧
    (∀ q, ¬(q ∈ d.added ∧ q ∈ d.removed)) ∧
    (∀ q, ¬(q ∈ d.modified ∧ q ∈ d.removed)) := by
  obtain ⟨a, m, pr, hs, hd⟩ := compute_diff_maps_ok hok
  subst hd
  have hadd : ∀ q ∈ a, q ∈ keysOf current ∧ q ∉ keysOf pristine := by
    intro q hq
    obtain ⟨h1, h2⟩ := (mem_added_iff hc hp hs).1 hq
    exact ⟨h1, lookupPath_eq_none_iff.1 h2⟩
  have hmodi : ∀ q ∈ m, q ∈ keysOf current ∧ q ∈ keysOf pristine := by
    intro q hq
    obtain ⟨cm, hlk, hcl⟩ := (mem_modified_iff hc hp hs).1 hq
    constructor
    · rw [← lookupPath_isSome_iff, hlk]
      rfl
    · rw [← lookupPath_isSome_iff]
      exact classifyB_true_lookup hcl
  have hrem : ∀ q ∈ pr.map Prod.fst, q ∈ keysOf pristine ∧ q ∉ keysOf current := by
    intro q hq
    obtain ⟨h1, h2⟩ := (mem_removed_iff hc hp hs).1 hq
    exact ⟨h1, lookupPath_eq_none_iff.1 h2⟩
  refine ⟨hadd, hmodi, hrem, ?_, ?_, ?_⟩
  · rintro q ⟨h1, h2⟩
    obtain ⟨_, hnp⟩ := hadd q h1
    obtain ⟨_, hyp⟩ := hmodi q h2
    exact hnp hyp
  · rintro q ⟨h1, h2⟩
    obtain ⟨hyc, _⟩ := hadd q h1
    obtain ⟨_, hnc⟩ := hrem q h2
    exact hnc hyc
  · rintro q ⟨h1, h2⟩
    obtain ⟨hyc, _⟩ := hmodi q h1
    obtain ⟨_, hnc⟩ := hrem q h2
    exact hnc hyc

/-- Witness for C10: the theorem applied at concrete snapshots with one
added, one unchanged and one removed path. -/
theorem compute_diff_output_domains_witness :
    (∀ q ∈ (Diff.mk [["new"]] [] [["gone"]]).added,
      q ∈ keysOf wCur ∧ q ∉ keysOf wPr) ∧
    (∀ q ∈ (Diff.mk [["new"]] [] [["gone"]]).modified,
      q ∈ keysOf wCur ∧ q ∈ keysOf wPr) ∧
    (∀ q ∈ (Diff.mk [["new"]] [] [["gone"]]).removed,
      q ∈ keysOf wPr ∧ q ∉ keysOf wCur) ∧
    (∀ q, ¬(q ∈ (Diff.mk [["new"]] [] [["gone"]]).added ∧
            q ∈ (Diff.mk [["new"]] [] [["gone"]]).modified)) ∧
    (∀ q, ¬(q ∈ (Diff.mk [["new"]] [] [["gone"]]).added ∧
            q ∈ (Diff.mk [["new"]] [] [["gone"]]).removed)) ∧
    (∀ q, ¬(q ∈ (Diff.mk [["new"]] [] [["gone"]]).modified ∧
            q ∈ (Diff.mk [["new"]] [] [["gone"]]).removed)) :=
  compute_diff_output_domains wPr wCur ⟨[["new"]], [], [["gone"]]⟩
    (by decide) (by decide) (by rfl)

/-! ### The walker preserves the `BTreeMap` ordering invariant -/

theorem recurse_dir_ordered (H : List Nat → List Nat) (ents : DirListing) (path : Path)
    (list : Snap) (out : Snap) (hord : MapOrdered list)
    (hok : recurse_dir H ents path list = .ok out) : MapOrdered out := by
  induction ents, path, list using recurse_dir.induct H generalizing out with
  | case1 =>
    simp only [recurse_dir] at hok
    injection hok with h
    rw [← h]
    exact hord
  | case2 =>
    rename_i hm hih
    simp only [recurse_dir, hm] at hok
    exact Except.noConfusion hok
  | case3 =>
    rename_i hm ihsub ihrest
    simp only [recurse_dir, hm] at hok
    exact ihrest out (ihsub _ (mapOrdered_insertSorted _ _ hord) hm) hok
  | case4 =>
    simp only [recurse_dir] at hok
    exact Except.noConfusion hok
  | case5 =>
    rename_i ih
    simp only [recurse_dir] at hok
    exact ih out (mapOrdered_insertSorted _ _ hord) hok
  | case6 =>
    rename_i ih
    simp only [recurse_dir] at hok
    exact ih out (mapOrdered_insertSorted _ _ hord) hok
  | case7 =>
    simp only [recurse_dir] at hok
    exact Except.noConfusion hok
  | case8 =>
    rename_i ih
    simp only [recurse_dir] at hok
    exact ih out (mapOrdered_insertSorted _ _ hord) hok
  | case9 =>
    rename_i ih
    simp only [recurse_dir] at hok
    exact ih out (mapOrdered_insertSorted _ _ hord) hok
  | case10 =>
    rename_i ih
    simp only [recurse_dir] at hok
    exact ih out hord hok
  | case11 =>
    rename_i hfalse
    simp only [recurse_dir, hfalse] at hok
    exact Except.noConfusion hok

/-! ### Claim C7: the new-default tree does not influence classification -/

/-- C7: two `compute_diff` runs that differ only in the new-default tree,
both of whose walks succeed, return identical results: the new snapshot is
computed but never consulted by the classification. -/
theorem compute_diff_new_tree_irrelevant
    (H : List Nat → List Nat) (p c n1 n2 : DirListing)
    (h1 : ∃ s1, recurse_dir H n1 [] [] = .ok s1)
    (h2 : ∃ s2, recurse_dir H n2 [] [] = .ok s2) :
    compute_diff H p c n1 = compute_diff H p c n2 := by
  obtain ⟨s1, hs1⟩ := h1
  obtain ⟨s2, hs2⟩ := h2
  rw [compute_diff, compute_diff]
  cases hp : recurse_dir H p [] [] with
  | error e => rfl
  | ok sp =>
    cases hc : recurse_dir H c [] [] with
    | error e => rfl
    | ok sc =>
      rw [hs1, hs2]

/-- Witness for C7: two runs at concrete trees, with new trees `[]` and a
one-file listing. -/
theorem compute_diff_new_tree_irrelevant_witness :
    compute_diff hId [("z", .file [9] 420 (.ok none))] [("b", .file [5] 420 (.ok none))] [] =
    compute_diff hId [("z", .file [9] 420 (.ok none))] [("b", .file [5] 420 (.ok none))]
      [("x", .file [] 0 (.ok none))] :=
  compute_diff_new_tree_irrelevant hId _ _ _ _
    ⟨[], by simp [recurse_dir]⟩
    ⟨[(["x"], ⟨hexEncode (hId []),
        hexEncode (compute_metadata_hash hId ⟨true, false, false, 0, 0⟩), none⟩)],
      by simp [recurse_dir, insertSorted]⟩

/-! ### Claim C6: the unsupported-entry skip branch -/

/-- C6 (code bug, evaluated on the embedded code): the source's
unsupported-entry branch (lib.rs lines 204-208) `continue`s without the
`path.pop()` every other branch performs, and the `entry.open()?` at line 177
runs before the entry-type dispatch.  Consequently (first conjunct) skipping
a successfully opened unsupported entry `s` leaks its name into the keys of
later siblings: the following file `f` is recorded at key `s/f` instead of
`f`, which is found at no key; and (second conjunct) an unsupported entry
whose open fails aborts the whole walk with an error.  The claim — that the
entry is skipped without error and merely not inserted — describes the
intent (the code's own comment says the file is ignored), not the code. -/
theorem recurse_dir_skip_missing_pop_bug :
    (recurse_dir hId [("s", .other true), ("f", .file [7] 420 (.ok none))] [] [] =
      .ok [(["s", "f"], ⟨hexEncode (hId [7]),
        hexEncode (compute_metadata_hash hId ⟨true, false, false, 1, 420⟩), none⟩)]) ∧
    lookupPath ["f"]
      [(["s", "f"], ⟨hexEncode (hId [7]),
        hexEncode (compute_metadata_hash hId ⟨true, false, false, 1, 420⟩), none⟩)] = none ∧
    recurse_dir hId [("sock", .other false)] [] [] = .error "opening entry failed" :=
  ⟨by simp [recurse_dir, insertSorted],
   by simp [lookupPath],
   by simp [recurse_dir]⟩

/-! ### Claim C8: diff output lists are sorted and duplicate-free -/

theorem pairwise_pathLt_nodup {l : List Path}
    (h : l.Pairwise fun x y => pathLt x y = true) : l.Nodup :=
  h.imp fun hlt => pathLt_ne hlt

theorem snapKeys_filter_pairwise {s : Snap} (hord : MapOrdered s)
    (p : Path × Metadata → Bool) :
    ((s.filter p).map Prod.fst).Pairwise fun x y => pathLt x y = true :=
  (List.pairwise_map).2 (hord.sublist (List.filter_sublist s))

/-- C8: on every successful `compute_diff` run the added, modified and
removed lists are each sorted in path-lexicographic order and contain no
duplicates. -/
theorem compute_diff_lists_sorted
    (H : List Nat → List Nat) (p c n : DirListing) (d : Diff)
    (hok : compute_diff H p c n = .ok d) :
    ((d.added.Pairwise fun x y => pathLt x y = true) ∧ d.added.Nodup) ∧
    ((d.modified.Pairwise fun x y => pathLt x y = true) ∧ d.modified.Nodup) ∧
    ((d.removed.Pairwise fun x y => pathLt x y = true) ∧ d.removed.Nodup) := by
  rw [compute_diff] at hok
  split at hok
  · exact Except.noConfusion hok
  · rename_i sp hsp
    split at hok
    · exact Except.noConfusion hok
    · rename_i sc hsc
      split at hok
      · exact Except.noConfusion hok
      · rename_i sn hsn
        have hordp : MapOrdered sp := recurse_dir_ordered H p [] [] sp List.Pairwise.nil hsp
        have hordc : MapOrdered sc := recurse_dir_ordered H c [] [] sc List.Pairwise.nil hsc
        obtain ⟨a, m, pr, hs, hd⟩ := compute_diff_maps_ok hok
        subst hd
        obtain ⟨e1, e2, e3⟩ := diff_scan_ok_spec sc sp a m pr
          (mapOrdered_nodupKeys hordc) (mapOrdered_nodupKeys hordp) hs
        subst e1; subst e2; subst e3
        refine ⟨⟨?_, ?_⟩, ⟨?_, ?_⟩, ⟨?_, ?_⟩⟩
        · exact snapKeys_filter_pairwise hordc _
        · exact pairwise_pathLt_nodup (snapKeys_filter_pairwise hordc _)
        · exact snapKeys_filter_pairwise hordc _
        · exact pairwise_pathLt_nodup (snapKeys_filter_pairwise hordc _)
        · exact snapKeys_filter_pairwise hordp _
        · exact pairwise_pathLt_nodup (snapKeys_filter_pairwise hordp _)

/-! ### findEntry lemmas -/

theorem entsLookup_mem {n : String} {l : DirListing} {e : FsEntry}
    (h : entsLookup n l = some e) : n ∈ l.map Prod.fst := by
  induction l with
  | nil => exact absurd h (by simp [entsLookup])
  | cons hd rest ih =>
    obtain ⟨m, e2⟩ := hd
    by_cases hn : n = m
    · subst hn
      exact List.mem_cons_self _ _
    · rw [entsLookup, if_neg hn] at h
      exact List.mem_cons_of_mem _ (ih h)

theorem findEntry_nil_path (ents : DirListing) : findEntry ents [] = none := by
  rw [findEntry]

theorem findEntry_cons_lift {name : String} {e0 : FsEntry} {rest : DirListing}
    {rel : Path} {e2 : FsEntry}
    (hname : name ∉ rest.map Prod.fst) (h : findEntry rest rel = some e2) :
    findEntry ((name, e0) :: rest) rel = some e2 := by
  match rel with
  | [] => exact absurd h (by rw [findEntry_nil_path]; simp)
  | [r0] =>
    rw [findEntry] at h ⊢
    have hr0 : r0 ≠ name := by
      intro hc
      exact hname (hc ▸ entsLookup_mem h)
    rw [entsLookup, if_neg hr0]
    exact h
  | r0 :: r1 :: rel3 =>
    rw [findEntry] at h ⊢
    case x_2 => exact fun hemp => List.noConfusion hemp
    case x_2 => exact fun hemp => List.noConfusion hemp
    cases hel : entsLookup r0 rest with
    | none =>
      rw [hel] at h
      exact absurd h (by simp)
    | some e3 =>
      have hr0 : r0 ≠ name := by
        intro hc
        exact hname (hc ▸ entsLookup_mem hel)
      rw [hel] at h
      rw [entsLookup, if_neg hr0, hel]
      exact h

theorem findEntry_cons_dir {name : String} {size mode : Nat} {sub : DirListing}
    {rest : DirListing} {rel2 : Path} {e2 : FsEntry}
    (h : findEntry sub rel2 = some e2) :
    findEntry ((name, .dir size mode sub) :: rest) (name :: rel2) = some e2 := by
  match rel2 with
  | [] => exact absurd h (by rw [findEntry_nil_path]; simp)
  | r1 :: rel3 =>
    rw [findEntry, entsLookup, if_pos rfl]
    case x_2 => exact fun hemp => List.noConfusion hemp
    exact h

theorem hexEncode_ne_empty {bs : List Nat} (h : bs ≠ []) : hexEncode bs ≠ "" := by
  cases bs with
  | nil => exact absurd rfl h
  | cons b rest =>
    unfold hexEncode
    intro hc
    have h2 := congrArg String.data hc
    simp at h2

/-! ### The walker correspondence: every snapshot entry comes from a tree
node reached at its path, with the fingerprint the source computes for it -/

theorem recurse_dir_lookup_spec (H : List Nat → List Nat) (ents : DirListing)
    (path : Path) (acc : Snap) (out : Snap)
    (hwf : wf_list ents = true) (hns : no_unsupported ents = true)
    (hok : recurse_dir H ents path acc = .ok out) :
    ∀ q md, lookupPath q out = some md →
      lookupPath q acc = some md ∨
      ∃ rel e, q = path ++ rel ∧ findEntry ents rel = some e ∧ MetaMatches H e md := by
  induction ents, path, acc using recurse_dir.induct H generalizing out with
  | case1 =>
    simp only [recurse_dir] at hok
    injection hok with h
    subst h
    intro q md hq
    exact Or.inl hq
  | case2 =>
    rename_i hm hih
    simp only [recurse_dir, hm] at hok
    exact Except.noConfusion hok
  | case3 =>
    rename_i name size mode ents2 rest path list list2 hm ihsub ihrest
    simp only [recurse_dir, hm] at hok
    simp only [wf_list, Bool.and_eq_true, Bool.not_eq_true', decide_eq_false_iff_not]
      at hwf
    obtain ⟨⟨hname, hwfsub⟩, hwfrest⟩ := hwf
    simp only [no_unsupported, Bool.and_eq_true] at hns
    obtain ⟨hnssub, hnsrest⟩ := hns
    intro q md hq
    rcases ihrest out hwfrest hnsrest hok q md hq with h2 | ⟨rel2, e2, hqeq, hfind, hmm⟩
    · rcases ihsub list2 hwfsub hnssub hm q md h2 with h3 | ⟨rel2, e2, hqeq, hfind, hmm⟩
      · rw [lookupPath_insertSorted] at h3
        by_cases hqp : q = path ++ [name]
        · rw [if_pos hqp] at h3
          injection h3 with h4
          refine Or.inr ⟨[name], .dir size mode ents2, hqp, ?_, ?_⟩
          · rw [findEntry, entsLookup, if_pos rfl]
          · rw [MetaMatches, ← h4]
        · rw [if_neg hqp] at h3
          exact Or.inl h3
      · refine Or.inr ⟨name :: rel2, e2, ?_, findEntry_cons_dir hfind, hmm⟩
        rw [hqeq, List.append_assoc]
        rfl
    · exact Or.inr ⟨rel2, e2, hqeq, findEntry_cons_lift hname hfind, hmm⟩
  | case4 =>
    simp only [recurse_dir] at hok
    exact Except.noConfusion hok
  | case5 =>
    rename_i name content mode rest path list d ih
    simp only [recurse_dir] at hok
    simp only [wf_list, Bool.and_eq_true, Bool.not_eq_true', decide_eq_false_iff_not]
      at hwf
    obtain ⟨hname, hwfrest⟩ := hwf
    simp only [no_unsupported] at hns
    intro q md hq
    rcases ih out hwfrest hns hok q md hq with h2 | ⟨rel2, e2, hqeq, hfind, hmm⟩
    · rw [lookupPath_insertSorted] at h2
      by_cases hqp : q = path ++ [name]
      · rw [if_pos hqp] at h2
        injection h2 with h4
        refine Or.inr ⟨[name], .file content mode (.ok (some d)), hqp, ?_, ?_⟩
        · rw [findEntry, entsLookup, if_pos rfl]
        · rw [MetaMatches, ← h4]
      · rw [if_neg hqp] at h2
        exact Or.inl h2
    · exact Or.inr ⟨rel2, e2, hqeq, findEntry_cons_lift hname hfind, hmm⟩
  | case6 =>
    rename_i name content mode rest path list ih
    simp only [recurse_dir] at hok
    simp only [wf_list, Bool.and_eq_true, Bool.not_eq_true', decide_eq_false_iff_not]
      at hwf
    obtain ⟨hname, hwfrest⟩ := hwf
    simp only [no_unsupported] at hns
    intro q md hq
    rcases ih out hwfrest hns hok q md hq with h2 | ⟨rel2, e2, hqeq, hfind, hmm⟩
    · rw [lookupPath_insertSorted] at h2
      by_cases hqp : q = path ++ [name]
      · rw [if_pos hqp] at h2
        injection h2 with h4
        refine Or.inr ⟨[name], .file content mode (.ok none), hqp, ?_, ?_⟩
        · rw [findEntry, entsLookup, if_pos rfl]
        · rw [MetaMatches, ← h4]
      · rw [if_neg hqp] at h2
        exact Or.inl h2
    · exact Or.inr ⟨rel2, e2, hqeq, findEntry_cons_lift hname hfind, hmm⟩
  | case7 =>
    simp only [recurse_dir] at hok
    exact Except.noConfusion hok
  | case8 =>
    rename_i name target mode rest path list d ih
    simp only [recurse_dir] at hok
    simp only [wf_list, Bool.and_eq_true, Bool.not_eq_true', decide_eq_false_iff_not]
      at hwf
    obtain ⟨hname, hwfrest⟩ := hwf
    simp only [no_unsupported] at hns
    intro q md hq
    rcases ih out hwfrest hns hok q md hq with h2 | ⟨rel2, e2, hqeq, hfind, hmm⟩
    · rw [lookupPath_insertSorted] at h2
      by_cases hqp : q = path ++ [name]
      · rw [if_pos hqp] at h2
        injection h2 with h4
        refine Or.inr ⟨[name], .symlink target mode (.ok (some d)), hqp, ?_, ?_⟩
        · rw [findEntry, entsLookup, if_pos rfl]
        · rw [MetaMatches, ← h4]
      · rw [if_neg hqp] at h2
        exact Or.inl h2
    · exact Or.inr ⟨rel2, e2, hqeq, findEntry_cons_lift hname hfind, hmm⟩
  | case9 =>
    rename_i name target mode rest path list ih
    simp only [recurse_dir] at hok
    simp only [wf_list, Bool.and_eq_true, Bool.not_eq_true', decide_eq_false_iff_not]
      at hwf
    obtain ⟨hname, hwfrest⟩ := hwf
    simp only [no_unsupported] at hns
    intro q md hq
    rcases ih out hwfrest hns hok q md hq with h2 | ⟨rel2, e2, hqeq, hfind, hmm⟩
    · rw [lookupPath_insertSorted] at h2
      by_cases hqp : q = path ++ [name]
      · rw [if_pos hqp] at h2
        injection h2 with h4
        refine Or.inr ⟨[name], .symlink target mode (.ok none), hqp, ?_, ?_⟩
        · rw [findEntry, entsLookup, if_pos rfl]
        · rw [MetaMatches, ← h4]
      · rw [if_neg hqp] at h2
        exact Or.inl h2
    · exact Or.inr ⟨rel2, e2, hqeq, findEntry_cons_lift hname hfind, hmm⟩
  | case10 =>
    simp only [no_unsupported] at hns
    exact absurd hns (by simp)
  | case11 =>
    rename_i hfalse
    simp only [recurse_dir, hfalse] at hok
    exact Except.noConfusion hok

/-! ### Claim C4: the metadata-hash byte layout -/

/-- C4 (amended): for trees free of unsupported entries (whose buggy skip
branch corrupts later sibling keys, see C6), every snapshot entry inserted
through the non-verity path (directories, unmeasured files and symlinks) has
`metadata_hash = hex(H(3 type bytes ++ (if not a directory) 8-byte LE size ++
4-byte LE mode))` — the mode field is 4 bytes (a `u32`), not 8 — while
entries inserted through the verity fast path instead have an empty
`metadata_hash` (and empty `content_hash`). -/
theorem recurse_dir_metadata_hash_spec
    (H : List Nat → List Nat) (ents : DirListing) (out : Snap)
    (hwf : wf_list ents = true) (hns : no_unsupported ents = true)
    (hok : recurse_dir H ents [] [] = .ok out) :
    ∀ q md, lookupPath q out = some md →
      ∃ e, findEntry ents q = some e ∧
        ((md.verity = none ∧
          md.metadata_hash = hexEncode (compute_metadata_hash H (statOf e))) ∨
         (md.verity.isSome = true ∧ md.metadata_hash = "" ∧ md.content_hash = "")) := by
  intro q md hq
  rcases recurse_dir_lookup_spec H ents [] [] out hwf hns hok q md hq with
    h | ⟨rel, e, hqeq, hfind, hmm⟩
  · exact absurd h (by rw [lookupPath]; simp)
  · rw [List.nil_append] at hqeq
    subst hqeq
    refine ⟨e, hfind, ?_⟩
    cases e with
    | dir size mode sub =>
      simp only [MetaMatches] at hmm
      rw [hmm]
      left
      exact ⟨rfl, rfl⟩
    | file content mode mv =>
      cases mv with
      | error e2 => simp only [MetaMatches] at hmm
      | ok mvo =>
        cases mvo with
        | none =>
          simp only [MetaMatches] at hmm
          rw [hmm]
          left
          exact ⟨rfl, rfl⟩
        | some dg =>
          simp only [MetaMatches] at hmm
          rw [hmm]
          right
          exact ⟨rfl, rfl, rfl⟩
    | symlink target mode mv =>
      cases mv with
      | error e2 => simp only [MetaMatches] at hmm
      | ok mvo =>
        cases mvo with
        | none =>
          simp only [MetaMatches] at hmm
          rw [hmm]
          left
          exact ⟨rfl, rfl⟩
        | some dg =>
          simp only [MetaMatches] at hmm
          rw [hmm]
          right
          exact ⟨rfl, rfl, rfl⟩
    | other b => simp only [MetaMatches] at hmm

/-- Counterexample to C4 as stated: under the identity digest, the byte
sequence the source hashes for a regular file (4-byte little-endian mode)
differs from the 8-byte-mode layout the specification describes, and an entry
inserted through the verity fast path has an empty metadata hash rather than
any digest encoding. -/
theorem recurse_dir_metadata_hash_counterexample :
    (recurse_dir hId [("f", .file [7] 420 (.ok none))] [] [] =
      .ok [(["f"], ⟨hexEncode (hId [7]),
        hexEncode (compute_metadata_hash hId ⟨true, false, false, 1, 420⟩), none⟩)]) ∧
    hexEncode (compute_metadata_hash hId ⟨true, false, false, 1, 420⟩) ≠
      hexEncode (hId (metadata_hash_input_spec ⟨true, false, false, 1, 420⟩)) ∧
    (recurse_dir hId [("v", .file [7] 420 (.ok (some [1])))] [] [] =
      .ok [(["v"], ⟨"", "", some (hexEncode [1])⟩)]) ∧
    ("" : String) ≠ hexEncode (hId (metadata_hash_input_spec ⟨true, false, false, 1, 420⟩)) :=
  ⟨by simp [recurse_dir, insertSorted], by decide,
   by simp [recurse_dir, insertSorted], by decide⟩

/-- Witness for C4 (amended): the theorem applied at `w4tree`, instantiated
at the symlink entry. -/
theorem recurse_dir_metadata_hash_spec_witness :
    ∃ e, findEntry w4tree ["d", "s"] = some e ∧
      (((Metadata.mk (hexEncode (hId [97]))
          (hexEncode (compute_metadata_hash hId ⟨false, false, true, 1, 511⟩)) none).verity
            = none ∧
        (Metadata.mk (hexEncode (hId [97]))
          (hexEncode (compute_metadata_hash hId ⟨false, false, true, 1, 511⟩)) none).metadata_hash
            = hexEncode (compute_metadata_hash hId (statOf e))) ∨
       ((Metadata.mk (hexEncode (hId [97]))
          (hexEncode (compute_metadata_hash hId ⟨false, false, true, 1, 511⟩)) none).verity.isSome
            = true ∧
        (Metadata.mk (hexEncode (hId [97]))
          (hexEncode (compute_metadata_hash hId ⟨false, false, true, 1, 511⟩)) none).metadata_hash
            = "" ∧
        (Metadata.mk (hexEncode (hId [97]))
          (hexEncode (compute_metadata_hash hId ⟨false, false, true, 1, 511⟩)) none).content_hash
            = "")) :=
  recurse_dir_metadata_hash_spec hId w4tree w4out
    (by simp [wf_list, w4tree])
    (by simp [no_unsupported, w4tree])
    (by simp [recurse_dir, insertSorted, w4tree, w4out, pathLt, strLt, strLtB, charLtB])
    ["d", "s"] _ (by simp [lookupPath, w4out])

/-! ### Claim C5: verity is present exactly when the measurement yields a
digest -/

/-- C5 (amended): for trees free of unsupported entries (whose buggy skip
branch corrupts later sibling keys, see C6), every snapshot entry sits at the
path of its tree node, which is never of unsupported type; `verity` is `None`
for directories; for files and symlinks whose open-and-measure call yields no
digest, `verity` is `None` and `content_hash` is populated (non-empty); and
for files and symlinks whose measurement yields a digest (for a symlink this
measures the opened target, so symlinks can carry verity, contrary to the
claim as stated), `verity` is that digest. -/
theorem recurse_dir_verity_invariant
    (H : List Nat → List Nat) (ents : DirListing) (out : Snap)
    (hwf : wf_list ents = true) (hns : no_unsupported ents = true)
    (hok : recurse_dir H ents [] [] = .ok out)
    (hH : ∀ bs, H bs ≠ []) :
    ∀ q md, lookupPath q out = some md →
      ∃ e, findEntry ents q = some e ∧
        (∀ size mode sub, e = .dir size mode sub → md.verity = none) ∧
        (∀ content mode, e = .file content mode (.ok none) →
          md.verity = none ∧ md.content_hash ≠ "") ∧
        (∀ content mode dg, e = .file content mode (.ok (some dg)) →
          md.verity = some (hexEncode dg)) ∧
        (∀ target mode, e = .symlink target mode (.ok none) →
          md.verity = none ∧ md.content_hash ≠ "") ∧
        (∀ target mode dg, e = .symlink target mode (.ok (some dg)) →
          md.verity = some (hexEncode dg)) ∧
        (∀ b, e ≠ .other b) := by
  intro q md hq
  rcases recurse_dir_lookup_spec H ents [] [] out hwf hns hok q md hq with
    h | ⟨rel, e, hqeq, hfind, hmm⟩
  · exact absurd h (by rw [lookupPath]; simp)
  · rw [List.nil_append] at hqeq
    subst hqeq
    refine ⟨e, hfind, ?_, ?_, ?_, ?_, ?_, ?_⟩
    · intro size mode sub he
      subst he
      simp only [MetaMatches] at hmm
      rw [hmm]
    · intro content mode he
      subst he
      simp only [MetaMatches] at hmm
      rw [hmm]
      exact ⟨rfl, hexEncode_ne_empty (hH content)⟩
    · intro content mode dg he
      subst he
      simp only [MetaMatches] at hmm
      rw [hmm]
    · intro target mode he
      subst he
      simp only [MetaMatches] at hmm
      rw [hmm]
      exact ⟨rfl, hexEncode_ne_empty (hH target)⟩
    · intro target mode dg he
      subst he
      simp only [MetaMatches] at hmm
      rw [hmm]
    · intro b he
      subst he
      simp only [MetaMatches] at hmm

/-- Counterexample to C5 as stated: a symlink whose opened target carries a
verity digest is recorded with `verity` present, although the claim says the
verity field is `None` whenever the entry is a symlink. -/
theorem recurse_dir_symlink_verity_counterexample :
    recurse_dir hId cexC5tree [] [] = .ok [(["l"], ⟨"", "", some (hexEncode [1])⟩)] ∧
    findEntry cexC5tree ["l"] = some (.symlink [97] 511 (.ok (some [1]))) ∧
    (Metadata.mk "" "" (some (hexEncode [1]))).verity ≠ none :=
  ⟨by simp [recurse_dir, insertSorted, cexC5tree],
   by simp [findEntry, entsLookup, cexC5tree],
   by simp⟩

/-- Witness for C5 (amended): the theorem applied at `w5tree` under the
never-empty digest `hPad`, instantiated at the unmeasured symlink entry. -/
theorem recurse_dir_verity_invariant_witness :
    ∃ e, findEntry w5tree ["s"] = some e ∧
      (∀ size mode sub, e = .dir size mode sub →
        (Metadata.mk (hexEncode (hPad [97]))
          (hexEncode (compute_metadata_hash hPad ⟨false, false, true, 1, 511⟩)) none).verity
          = none) ∧
      (∀ content mode, e = .file content mode (.ok none) →
        (Metadata.mk (hexEncode (hPad [97]))
          (hexEncode (compute_metadata_hash hPad ⟨false, false, true, 1, 511⟩)) none).verity
          = none ∧
        (Metadata.mk (hexEncode (hPad [97]))
          (hexEncode (compute_metadata_hash hPad ⟨false, false, true, 1, 511⟩)) none).content_hash
          ≠ "") ∧
      (∀ content mode dg, e = .file content mode (.ok (some dg)) →
        (Metadata.mk (hexEncode (hPad [97]))
          (hexEncode (compute_metadata_hash hPad ⟨false, false, true, 1, 511⟩)) none).verity
          = some (hexEncode dg)) ∧
      (∀ target mode, e = .symlink target mode (.ok none) →
        (Metadata.mk (hexEncode (hPad [97]))
          (hexEncode (compute_metadata_hash hPad ⟨false, false, true, 1, 511⟩)) none).verity
          = none ∧
        (Metadata.mk (hexEncode (hPad [97]))
          (hexEncode (compute_metadata_hash hPad ⟨false, false, true, 1, 511⟩)) none).content_hash
          ≠ "") ∧
      (∀ target mode dg, e = .symlink target mode (.ok (some dg)) →
        (Metadata.mk (hexEncode (hPad [97]))
          (hexEncode (compute_metadata_hash hPad ⟨false, false, true, 1, 511⟩)) none).verity
          = some (hexEncode dg)) ∧
      (∀ b, e ≠ .other b) :=
  recurse_dir_verity_invariant hPad w5tree w5out
    (by simp [wf_list, w5tree])
    (by simp [no_unsupported, w5tree])
    (by simp [recurse_dir, insertSorted, w5tree, w5out, pathLt, strLt, strLtB, charLtB])
    (by intro bs; simp [hPad])
    ["s"] _ (by simp [lookupPath, w5out])

/-- Witness for C8: the theorem applied at concrete trees with one added and
one removed path. -/
theorem compute_diff_lists_sorted_witness :
    (((Diff.mk [["b"]] [] [["z"]]).added.Pairwise fun x y => pathLt x y = true) ∧
      (Diff.mk [["b"]] [] [["z"]]).added.Nodup) ∧
    (((Diff.mk [["b"]] [] [["z"]]).modified.Pairwise fun x y => pathLt x y = true) ∧
      (Diff.mk [["b"]] [] [["z"]]).modified.Nodup) ∧
    (((Diff.mk [["b"]] [] [["z"]]).removed.Pairwise fun x y => pathLt x y = true) ∧
      (Diff.mk [["b"]] [] [["z"]]).removed.Nodup) :=
  compute_diff_lists_sorted hId [("z", .file [9] 420 (.ok none))]
    [("b", .file [5] 420 (.ok none))] [] ⟨[["b"]], [], [["z"]]⟩
    (by simp [compute_diff, recurse_dir, insertSorted, compute_diff_maps, diff_scan,
      lookupPath, removeKey])

end EtcMerge
